import Mathlib

set_option maxRecDepth 100000

/-!
Shallow embedding of `scripts/periphery/flashloan_zap.py`: loan-operation
calculators for a leverage zap, built on the Odos quote service.

External collaborators (on-chain contract reads and the quote service) are
modelled as records of pure functions, passed explicitly.  Each calculator
returns its result (or the failed assertion, as an `Except` error) together
with the list of quote requests `(token_in, token_out, amount_in)` and the
list of route-calldata requests it issued, so that claims about which
external calls were made can be stated.

Python evaluates `amount_in * debt_shortfall / amount_out` (line 165) and
`debt_shortfall / oracle_price * (1 + max_slippage)` (line 159) with float
true division: an int/int quotient is the IEEE-754 binary64 double nearest
to the exact quotient (CPython computes it correctly rounded), and `int`
truncates it.  The model below implements binary64 rounding (round to
nearest, ties to even, 53-bit significand) exactly, with an unbounded
exponent: overflow to infinity and subnormal underflow are outside the
magnitudes these calculators handle and are not modelled.

The unbounded `while` loop of the close-loan calculator is embedded with an
explicit fuel parameter; a `none` result means the loop is still running
after `fuel` iterations, so termination of the source loop is the statement
that some fuel suffices.
-/

/-- Stable-token address constant `MONEY` from the source (addresses are
modelled as numbers). -/
def MONEY : ℕ := 0x69420f9e38a4e60a62224c489be4bf7a94402496

/-- The `ZERO_ADDRESS` constant imported from brownie. -/
def ZERO_ADDRESS : ℕ := 0

/-- Number of binary digits of `n` (`0` for `0`), written with a fuel
argument so that it evaluates by kernel reduction; `n` itself is always
enough fuel since the value loses one bit per step. -/
def bitlenAux : ℕ → ℕ → ℕ
  | 0, _ => 0
  | fuel + 1, n => if n = 0 then 0 else bitlenAux fuel (n / 2) + 1

/-- Number of binary digits of `n`: `2 ^ (bitlen n - 1) ≤ n < 2 ^ bitlen n`
for positive `n`. -/
def bitlen (n : ℕ) : ℕ := bitlenAux n n

/-- Round `p / q` to the nearest integer, ties to even. -/
def rnEven (p q : ℕ) : ℕ :=
  let m := p / q
  let r := p % q
  if 2 * r < q then m
  else if q < 2 * r then m + 1
  else if m % 2 = 0 then m else m + 1

/-- Round `a / b` to the nearest multiple of `2 ^ k`, ties to even, returned
as the multiplier. -/
def roundAt (a b : ℕ) (k : ℤ) : ℕ :=
  if 0 ≤ k then rnEven a (b * 2 ^ k.toNat)
  else rnEven (a * 2 ^ (-k).toNat) b

/-- The binary64 (round to nearest, ties to even) value of `a / b`, as a
significand-exponent pair `(s, k)` denoting `s * 2 ^ k`, with
`2 ^ 52 ≤ s ≤ 2 ^ 53` for positive inputs.  The first rounding guess uses
the bit lengths; when the rounded significand overflows 53 bits the quantum
is doubled once.  `(0, 0)` on zero input. -/
def floatRound (a b : ℕ) : ℕ × ℤ :=
  if a = 0 ∨ b = 0 then (0, 0)
  else
    let k : ℤ := (bitlen a : ℤ) - (bitlen b : ℤ) - 53
    let s := roundAt a b k
    if s ≤ 2 ^ 53 then (s, k) else (roundAt a b (k + 1), k + 1)

/-- The exact rational value denoted by a significand-exponent pair. -/
def pairVal (p : ℕ × ℤ) : ℚ := (p.1 : ℚ) * 2 ^ p.2

/-- Python's `int(a / b)` for naturals: binary64 true division, then
truncation toward zero. -/
def fdiv_trunc (a b : ℕ) : ℕ :=
  let p := floatRound a b
  if 0 ≤ p.2 then p.1 * 2 ^ p.2.toNat else p.1 / 2 ^ (-p.2).toNat

/-- Python's `round(a / b)` for naturals: binary64 true division, then
rounding to the nearest integer (ties to even) — the rounding variant of the
rescale step contemplated by the spec's regression-test sentence, written
only to be compared with the truncating behaviour. -/
def fdiv_round (a b : ℕ) : ℕ :=
  let p := floatRound a b
  if 0 ≤ p.2 then p.1 * 2 ^ p.2.toNat else rnEven p.1 (2 ^ (-p.2).toNat)

/-- Binary64 product of two doubles given as significand-exponent pairs: the
exact significand product is rounded back to 53 bits and the exponents add. -/
def floatMul (p q : ℕ × ℤ) : ℕ × ℤ :=
  let r := floatRound (p.1 * q.1) 1
  (r.1, r.2 + p.2 + q.2)

/-- Binary64 rounding of a nonnegative rational (used for `1 + max_slippage`,
whose exact sum must be rounded back to a double). -/
def flq (q : ℚ) : ℕ × ℤ := floatRound q.num.toNat q.den

/-- Modelled from the spec: `to_int` (imported from `scripts/utils/float2int`,
a repository file not included under `src/`) is described by the spec as
`ceil_to_token_precision`: round the real-valued token amount up into the
token's fixed-point precision. -/
def to_int (x : ℚ) (decimals : ℕ) : ℕ := (Int.ceil (x * 10 ^ decimals)).toNat

/-- `to_int` specialized to the exact value of a significand-exponent pair,
expressed over the naturals so that it evaluates by kernel reduction;
`to_int_pairVal` below proves the agreement. -/
def ceilPair (p : ℕ × ℤ) (dec : ℕ) : ℕ :=
  if 0 ≤ p.2 then p.1 * 2 ^ p.2.toNat * 10 ^ dec
  else (p.1 * 10 ^ dec + 2 ^ (-p.2).toNat - 1) / 2 ^ (-p.2).toNat

/-- Lines 159-160 of the source: the close-loan seed estimate `amount_in =
debt_shortfall / controller.get_oracle_price(collateral) * (1 +
max_slippage)` evaluated in binary64 — `fl(fl(ds / price) * fl(1 + slip))`,
with `slip` the double passed by the caller — followed by `amount_in =
to_int(amount_in, collateral.decimals())`. -/
def seed_amount (debt_shortfall price : ℕ) (max_slippage : ℚ) (decimals : ℕ) : ℕ :=
  to_int (pairVal (floatMul (floatRound debt_shortfall price)
    (flq (1 + max_slippage)))) decimals

/-- On-chain state reads used by the calculators (controller, market, AMM and
token contract views), modelled as a record of pure functions — one field per
contract view the source calls. -/
structure Env where
  chain_id : ℕ
  /-- `controller.get_collateral(market)` -/
  get_collateral : ℕ → ℕ
  /-- `Contract(MONEY).balanceOf(account)` -/
  money_balanceOf : ℕ → ℕ
  /-- `controller.get_close_loan_amounts(account, market)` returning
  `(debt_amm, coll_amm)` -/
  get_close_loan_amounts : ℕ → ℕ → ℤ × ℤ
  /-- `controller.get_oracle_price(collateral)` -/
  get_oracle_price : ℕ → ℕ
  /-- `token.decimals()` -/
  decimals : ℕ → ℕ
  /-- `market.user_state(account)[0]`, as `(market, account) ↦ collateral` -/
  user_state_coll : ℕ → ℕ → ℕ
  /-- `market.pending_account_state_calculator(account, coll, debt, n_bands)`,
  as `(market, account, coll, debt, n_bands) ↦ health` -/
  pending_state : ℕ → ℕ → ℤ → ℤ → ℕ → ℤ
  /-- first two entries of `controller.market_contracts(market)`:
  `(collateral, amm)` -/
  market_contracts : ℕ → ℕ × ℕ
  /-- `Contract(amm).get_sum_xy(account)` returning `(debt_amm, coll_amm)` -/
  get_sum_xy : ℕ → ℕ → ℤ × ℤ

/-- The Odos quote service: `get_quote chain sender token_in token_out
amount_in max_slippage` returns `(amount_out, path_id)` for an exact-input
swap, and `get_route_calldata sender path_id` materializes the routing data
(an opaque payload, modelled as a number). -/
structure Odos where
  get_quote : ℕ → ℕ → ℕ → ℕ → ℕ → ℚ → ℕ × ℕ
  get_route_calldata : ℕ → ℕ → ℕ

/-- Line 165 of the source: `amount_in = int(amount_in * debt_shortfall /
amount_out)`.  The product of the two ints is exact; the division is binary64
true division and `int` truncates the double — which differs from the exact
floor quotient once magnitudes exceed double precision. -/
def rescale (amount_in debt_shortfall amount_out : ℕ) : ℕ :=
  fdiv_trunc (amount_in * debt_shortfall) amount_out

/-- The rounded-to-nearest variant of the rescale step contemplated by the
spec's regression-test sentence: `round` of the same binary64 quotient
instead of `int`, written only to be compared with `rescale`. -/
def rescaleRounded (amount_in debt_shortfall amount_out : ℕ) : ℕ :=
  fdiv_round (amount_in * debt_shortfall) amount_out

/-- The `while amount_out < debt_shortfall` loop of
`get_close_loan_routing_data` (lines 164-168).  `quote` is the in-loop Odos
call with every argument other than the input amount fixed.  The source loop
is unbounded; `fuel` bounds how many iterations are unfolded, with `none`
meaning the loop is still running after `fuel` iterations.  Returns the final
`(amount_in, amount_out, path_id)` and the list of input amounts requested by
the loop body, in order. -/
def targetOutputSearch (quote : ℕ → ℕ × ℕ) (debt_shortfall : ℕ) :
    ℕ → ℕ → ℕ → ℕ → Option (ℕ × ℕ × ℕ) × List ℕ
  | 0, amount_in, amount_out, path_id =>
    if amount_out < debt_shortfall then (none, [])
    else (some (amount_in, amount_out, path_id), [])
  | fuel + 1, amount_in, amount_out, path_id =>
    if amount_out < debt_shortfall then
      let next := rescale amount_in debt_shortfall amount_out
      let q := quote next
      let r := targetOutputSearch quote debt_shortfall fuel next q.1 q.2
      (r.1, next :: r.2)
    else (some (amount_in, amount_out, path_id), [])

/-- Embedding of `get_close_loan_routing_data` (lines 119-170).  Returns the
result `(routingData, amount_in, amount_out)`, or the failed assertion as an
error, together with the quote requests and route-calldata requests issued.
Exhausting `fuel` yields the distinguishable error `"did not converge"`,
modelling the source loop still running. -/
def get_close_loan_routing_data (env : Env) (odos : Odos)
    (zap account market : ℕ) (use_account_balance : Bool) (max_slippage : ℚ)
    (fuel : ℕ) :
    Except String (ℕ × ℕ × ℕ) × List (ℕ × ℕ × ℕ) × List ℕ :=
  let collateral := env.get_collateral market
  let amount := if use_account_balance then env.money_balanceOf account else 0
  let p := env.get_close_loan_amounts account market
  let debt_amm := p.1
  let coll_amm := p.2
  let debt_shortfall : ℤ := -((amount : ℤ) + debt_amm)
  if 0 ≤ debt_amm then (.error "assert debt_amm < 0", [], [])
  else if coll_amm ≤ 0 then (.error "assert coll_amm > 0", [], [])
  else if debt_shortfall ≤ 0 then (.error "assert debt_shortfall > 0", [], [])
  else
    let ds := debt_shortfall.toNat
    let amount_in :=
      seed_amount ds (env.get_oracle_price collateral) max_slippage (env.decimals collateral)
    let quote := fun a =>
      odos.get_quote env.chain_id zap collateral MONEY a max_slippage
    let q0 := quote amount_in
    let r := targetOutputSearch quote ds fuel amount_in q0.1 q0.2
    let calls := (amount_in :: r.2).map fun a => (collateral, MONEY, a)
    let res : Except String (ℕ × ℕ × ℕ) :=
      match r.1 with
      | none => .error "did not converge"
      | some (a, out, pid) => .ok (odos.get_route_calldata zap pid, a, out)
    let pids : List ℕ :=
      match r.1 with
      | none => []
      | some (_, _, pid) => [pid]
    (res, calls, pids)

/-- Embedding of `get_increase_loan_routing_data` (lines 47-82). -/
def get_increase_loan_routing_data (env : Env) (odos : Odos)
    (zap account market coll_amount debt_amount : ℕ) (max_slippage : ℚ) :
    (ℕ × ℕ × ℤ) × List (ℕ × ℕ × ℕ) × List ℕ :=
  let collateral := env.get_collateral market
  let q := odos.get_quote env.chain_id zap MONEY collateral debt_amount max_slippage
  let coll_in := q.1
  let path_id := q.2
  let coll_existing := env.user_state_coll market account
  let total_coll := coll_existing + coll_amount + coll_in
  let health := env.pending_state market account
    ((coll_amount + coll_in : ℕ) : ℤ) (debt_amount : ℤ) 0
  ((odos.get_route_calldata zap path_id, total_coll, health),
    [(MONEY, collateral, debt_amount)], [path_id])

/-- Embedding of `get_decrease_loan_routing_data` (lines 85-116). -/
def get_decrease_loan_routing_data (env : Env) (odos : Odos)
    (zap account market coll_amount : ℕ) (max_slippage : ℚ) :
    (ℕ × ℕ × ℤ) × List (ℕ × ℕ × ℕ) × List ℕ :=
  let collateral := env.get_collateral market
  let q := odos.get_quote env.chain_id zap collateral MONEY coll_amount max_slippage
  let debt_in := q.1
  let path_id := q.2
  let health := env.pending_state market account
    (-(coll_amount : ℤ)) (-(debt_in : ℤ)) 0
  ((odos.get_route_calldata zap path_id, debt_in, health),
    [(collateral, MONEY, coll_amount)], [path_id])

/-- Embedding of `get_coll_converted_close_and_create_routing_data`
(lines 173-207). -/
def get_coll_converted_close_and_create_routing_data (env : Env) (odos : Odos)
    (zap account market : ℕ) (coll_amount : ℤ) (max_slippage : ℚ) :
    Except String (ℕ × ℤ) × List (ℕ × ℕ × ℕ) × List ℕ :=
  let mc := env.market_contracts market
  let collateral := mc.1
  let amm := mc.2
  let s := env.get_sum_xy amm account
  let debt_amm := s.1
  let coll_amm := s.2
  if debt_amm ≤ 0 then (.error "assert debt_amm > 0", [], [])
  else
    let q := odos.get_quote env.chain_id zap MONEY collateral debt_amm.toNat max_slippage
    (.ok (odos.get_route_calldata zap q.2, coll_amount + coll_amm + (q.1 : ℤ)),
      [(MONEY, collateral, debt_amm.toNat)], [q.2])

/-- A concrete chain-state snapshot used to exercise the calculators on
closed inputs: a close-ready account (AMM debt of `-100`, positive AMM
collateral), unit oracle price, zero-decimal collateral token. -/
def testEnv : Env where
  chain_id := 1
  get_collateral := fun _ => 7
  money_balanceOf := fun _ => 0
  get_close_loan_amounts := fun _ _ => (-100, 1)
  get_oracle_price := fun _ => 1
  decimals := fun _ => 0
  user_state_coll := fun _ _ => 5000
  pending_state := fun _ _ c d _ => c + d
  market_contracts := fun _ => (7, 8)
  get_sum_xy := fun _ _ => (40, 5)

/-- The snapshot `testEnv` with the concrete close scenario of the spec's
seed example: AMM debt `-1000000`, oracle price `2000`, 18-decimal
collateral token. -/
def testEnvOracle2000 : Env :=
  { testEnv with
    get_close_loan_amounts := fun _ _ => (-1000000, 1)
    get_oracle_price := fun _ => 2000
    decimals := fun _ => 18 }

/-- The snapshot `testEnv` with a non-negative AMM debt, violating the
close-loan precondition `debt_amm < 0`. -/
def testEnvBadDebt : Env :=
  { testEnv with get_close_loan_amounts := fun _ _ => (5, 1) }

/-- The snapshot `testEnv` with a negative AMM-held debt sum, violating the
close-and-recreate precondition `debt_amm > 0`. -/
def testEnvNegSum : Env :=
  { testEnv with get_sum_xy := fun _ _ => (-40, 5) }

/-- A concrete quote service whose quoted output equals the input amount and
whose route identifier is always `3`. -/
def idOdos : Odos where
  get_quote := fun _ _ _ _ amount_in _ => (amount_in, 3)
  get_route_calldata := fun _ path_id => path_id + 1000

/-- A concrete quote service that always quotes an output of `450` with
route identifier `3`. -/
def odos450 : Odos where
  get_quote := fun _ _ _ _ _ _ => (450, 3)
  get_route_calldata := fun _ path_id => path_id + 1000

/-- A concrete in-loop quote function: inputs up to `2` are quoted at `3`
out, larger inputs at `7` out. -/
def stepQuote : ℕ → ℕ × ℕ := fun a => if a ≤ 2 then (3, 0) else (7, 1)

/-- A concrete in-loop quote function with a flat region: inputs below `100`
are quoted at `10` out, larger inputs at `1000` out.  Monotone, positive, and
able to reach any target up to `1000`, yet the rescale step stalls on it. -/
def stallQuote : ℕ → ℕ × ℕ := fun a => if a < 100 then (10, 0) else (1000, 1)


theorem bitlenAux_zero : ∀ fuel, bitlenAux fuel 0 = 0
  | 0 => rfl
  | _ + 1 => by simp [bitlenAux]

theorem bitlenAux_spec : ∀ fuel n, n ≤ fuel → 0 < n →
    2 ^ (bitlenAux fuel n - 1) ≤ n ∧ n < 2 ^ bitlenAux fuel n := by
  intro fuel
  induction fuel with
  | zero => intro n h1 h2; omega
  | succ fuel ih =>
    intro n h1 h2
    rw [bitlenAux, if_neg (by omega : ¬ n = 0)]
    by_cases hn : n = 1
    · subst hn
      norm_num [bitlenAux_zero]
    · have h2' : 0 < n / 2 := by omega
      obtain ⟨ha, hb⟩ := ih (n / 2) (by omega) h2'
      set L := bitlenAux fuel (n / 2) with hL
      have hL1 : 1 ≤ L := by
        rcases Nat.eq_zero_or_pos L with h | h
        · rw [h] at hb; simp at hb; omega
        · exact h
      have hpow : 2 ^ L = 2 * 2 ^ (L - 1) := by
        rw [← pow_succ']
        congr 1
        omega
      have hpow2 : 2 ^ (L + 1) = 2 * 2 ^ L := by rw [pow_succ]; ring
      constructor
      · simp only [Nat.add_sub_cancel]
        rw [hpow]
        omega
      · rw [hpow2]
        omega

/-- Binary-length bounds: `2 ^ (bitlen n - 1) ≤ n < 2 ^ bitlen n` for positive `n`. -/
theorem bitlen_spec (n : ℕ) (h : 0 < n) :
    2 ^ (bitlen n - 1) ≤ n ∧ n < 2 ^ bitlen n :=
  bitlenAux_spec n n le_rfl h

theorem bitlen_pos (n : ℕ) (h : 0 < n) : 1 ≤ bitlen n := by
  rcases Nat.eq_zero_or_pos (bitlen n) with h0 | h0
  · have := (bitlen_spec n h).2
    rw [h0] at this
    simp at this
    omega
  · exact h0

theorem bitlen_le (n t : ℕ) (h : n < 2 ^ t) : bitlen n ≤ t := by
  rcases Nat.eq_zero_or_pos n with h0 | h0
  · subst h0
    simp [bitlen, bitlenAux_zero]
  · by_contra hc
    push_neg at hc
    have h1 := (bitlen_spec n h0).1
    have hle : 2 ^ t ≤ 2 ^ (bitlen n - 1) := Nat.pow_le_pow_right (by norm_num) (by omega)
    omega

theorem rnEven_bounds (p q : ℕ) (hq : 0 < q) :
    2 * p ≤ 2 * (rnEven p q) * q + q ∧ 2 * (rnEven p q) * q ≤ 2 * p + q := by
  have hdm := Nat.div_add_mod p q
  have hr : p % q < q := Nat.mod_lt _ hq
  simp only [rnEven]
  set m := p / q with hm
  set r := p % q with hrr
  split_ifs with h1 h2 h3 <;> constructor <;> nlinarith [hdm, hr]

theorem rnEven_exact (p q : ℕ) (hq : 0 < q) (hdvd : q ∣ p) : rnEven p q = p / q := by
  obtain ⟨c, rfl⟩ := hdvd
  simp only [rnEven, Nat.mul_mod_right]
  rw [if_pos (by omega)]

theorem rnEven_spec_q (P Q : ℕ) (hQ : 0 < Q) :
    (P : ℚ) / Q - 1/2 ≤ (rnEven P Q : ℚ) ∧ (rnEven P Q : ℚ) ≤ (P : ℚ) / Q + 1/2 := by
  obtain ⟨h1, h2⟩ := rnEven_bounds P Q hQ
  have hQq : (0:ℚ) < (Q:ℚ) := by exact_mod_cast hQ
  have h1q : 2 * (P:ℚ) ≤ 2 * (rnEven P Q : ℚ) * Q + Q := by exact_mod_cast h1
  have h2q : 2 * (rnEven P Q : ℚ) * Q ≤ 2 * (P:ℚ) + Q := by exact_mod_cast h2
  constructor
  · rw [sub_le_iff_le_add, div_le_iff₀ hQq]
    linarith
  · rw [← sub_le_iff_le_add, le_div_iff₀ hQq]
    linarith

theorem roundAt_spec (a b : ℕ) (k : ℤ) (hb : 0 < b) :
    (a : ℚ) / b * (2:ℚ) ^ (-k) - 1/2 ≤ (roundAt a b k : ℚ) ∧
    (roundAt a b k : ℚ) ≤ (a : ℚ) / b * (2:ℚ) ^ (-k) + 1/2 := by
  unfold roundAt
  split_ifs with hk
  · have hQ : 0 < b * 2 ^ k.toNat := by positivity
    have hcast : ((b * 2 ^ k.toNat : ℕ) : ℚ) = (b:ℚ) * (2:ℚ) ^ k := by
      push_cast
      rw [← zpow_natCast (2:ℚ) k.toNat, Int.toNat_of_nonneg hk]
    have hval : ((a : ℕ) : ℚ) / ((b * 2 ^ k.toNat : ℕ) : ℚ) = (a : ℚ) / b * (2:ℚ) ^ (-k) := by
      rw [hcast, zpow_neg, div_mul_eq_div_div, div_eq_mul_inv]
    rw [← hval]
    exact rnEven_spec_q a _ hQ
  · have hcast : ((a * 2 ^ (-k).toNat : ℕ) : ℚ) = (a:ℚ) * (2:ℚ) ^ (-k) := by
      push_cast
      rw [← zpow_natCast (2:ℚ) (-k).toNat, Int.toNat_of_nonneg (by omega : (0:ℤ) ≤ -k)]
    have hval : ((a * 2 ^ (-k).toNat : ℕ) : ℚ) / (b : ℚ) = (a : ℚ) / b * (2:ℚ) ^ (-k) := by
      rw [hcast]
      ring
    rw [← hval]
    exact rnEven_spec_q _ b hb

theorem floatRound_spec (a b : ℕ) (ha : 0 < a) (hb : 0 < b) :
    2 ^ 52 ≤ (floatRound a b).1 ∧ (floatRound a b).1 ≤ 2 ^ 53 ∧
    (a : ℚ) / b * (2:ℚ) ^ (-(floatRound a b).2) - 1/2 ≤ ((floatRound a b).1 : ℚ) ∧
    ((floatRound a b).1 : ℚ) ≤ (a : ℚ) / b * (2:ℚ) ^ (-(floatRound a b).2) + 1/2 := by
  have hbq : (0:ℚ) < (b:ℚ) := by exact_mod_cast hb
  obtain ⟨ha1, ha2⟩ := bitlen_spec a ha
  obtain ⟨hb1, hb2⟩ := bitlen_spec b hb
  have hA1 : 1 ≤ bitlen a := bitlen_pos a ha
  have hB1 : 1 ≤ bitlen b := bitlen_pos b hb
  set A := bitlen a with hA
  set B := bitlen b with hB
  set k : ℤ := (A : ℤ) - B - 53 with hk
  have h2ne : (2:ℚ) ≠ 0 := by norm_num
  have hQl : (2:ℚ) ^ (k + 52) < (a:ℚ) / b := by
    rw [lt_div_iff₀ hbq]
    have e1 : (2:ℚ) ^ (k + 52) * (2:ℚ) ^ (B:ℤ) = (2:ℚ) ^ ((A:ℤ) - 1) := by
      rw [← zpow_add₀ h2ne]
      congr 1
      omega
    have hblt : (b : ℚ) < (2:ℚ) ^ (B:ℤ) := by
      rw [zpow_natCast]
      exact_mod_cast hb2
    have hage : (2:ℚ) ^ ((A:ℤ) - 1) ≤ (a:ℚ) := by
      rw [show (A:ℤ) - 1 = ((A - 1 : ℕ) : ℤ) by omega, zpow_natCast]
      exact_mod_cast ha1
    calc (2:ℚ) ^ (k + 52) * b < (2:ℚ) ^ (k + 52) * (2:ℚ) ^ (B:ℤ) :=
          mul_lt_mul_of_pos_left hblt (by positivity)
      _ = (2:ℚ) ^ ((A:ℤ) - 1) := e1
      _ ≤ a := hage
  have hQu : (a:ℚ) / b < (2:ℚ) ^ (k + 54) := by
    rw [div_lt_iff₀ hbq]
    have e1 : (2:ℚ) ^ (k + 54) * (2:ℚ) ^ ((B:ℤ) - 1) = (2:ℚ) ^ (A:ℤ) := by
      rw [← zpow_add₀ h2ne]
      congr 1
      omega
    have hble : (2:ℚ) ^ ((B:ℤ) - 1) ≤ (b:ℚ) := by
      rw [show (B:ℤ) - 1 = ((B - 1 : ℕ) : ℤ) by omega, zpow_natCast]
      exact_mod_cast hb1
    have halt : (a:ℚ) < (2:ℚ) ^ (A:ℤ) := by
      rw [zpow_natCast]
      exact_mod_cast ha2
    calc (a:ℚ) < (2:ℚ) ^ (A:ℤ) := halt
      _ = (2:ℚ) ^ (k + 54) * (2:ℚ) ^ ((B:ℤ) - 1) := e1.symm
      _ ≤ (2:ℚ) ^ (k + 54) * b := mul_le_mul_of_nonneg_left hble (by positivity)
  have hQk : (2:ℚ) ^ ((52:ℤ)) < (a:ℚ) / b * (2:ℚ) ^ (-k) := by
    have := mul_lt_mul_of_pos_right hQl (show (0:ℚ) < (2:ℚ) ^ (-k) by positivity)
    calc (2:ℚ) ^ ((52:ℤ)) = (2:ℚ) ^ (k + 52) * (2:ℚ) ^ (-k) := by
          rw [← zpow_add₀ h2ne]
          congr 1
          omega
      _ < (a:ℚ) / b * (2:ℚ) ^ (-k) := this
  have hQk2 : (a:ℚ) / b * (2:ℚ) ^ (-(k+1)) < (2:ℚ) ^ ((53:ℤ)) := by
    have := mul_lt_mul_of_pos_right hQu (by positivity : (0:ℚ) < (2:ℚ) ^ (-(k+1)))
    calc (a:ℚ) / b * (2:ℚ) ^ (-(k+1)) < (2:ℚ) ^ (k + 54) * (2:ℚ) ^ (-(k+1)) := this
      _ = (2:ℚ) ^ ((53:ℤ)) := by
          rw [← zpow_add₀ h2ne]
          congr 1
          omega
  have hc52 : ((2 ^ 52 : ℕ) : ℚ) = (2:ℚ) ^ ((52:ℤ)) := by norm_num
  have hc53 : ((2 ^ 53 : ℕ) : ℚ) = (2:ℚ) ^ ((53:ℤ)) := by norm_num
  have hunfold : floatRound a b =
      if roundAt a b k ≤ 2 ^ 53 then (roundAt a b k, k) else (roundAt a b (k + 1), k + 1) := by
    rw [floatRound, if_neg (by push_neg; omega)]
  obtain ⟨hr1, hr2⟩ := roundAt_spec a b k hb
  by_cases hacc : roundAt a b k ≤ 2 ^ 53
  · rw [hunfold, if_pos hacc]
    refine ⟨?_, hacc, hr1, hr2⟩
    by_contra hlt
    push_neg at hlt
    have hsq : ((roundAt a b k : ℕ) : ℚ) ≤ ((2 ^ 52 : ℕ) : ℚ) - 1 := by
      have : (roundAt a b k) + 1 ≤ 2 ^ 52 := hlt
      have := (Nat.cast_le (α := ℚ)).mpr this
      push_cast at this ⊢
      linarith
    rw [hc52] at hsq
    linarith
  · rw [hunfold, if_neg hacc]
    push_neg at hacc
    obtain ⟨hr1', hr2'⟩ := roundAt_spec a b (k + 1) hb
    have hhalf : (a:ℚ) / b * (2:ℚ) ^ (-(k+1)) = (a:ℚ) / b * (2:ℚ) ^ (-k) / 2 := by
      rw [show -(k+1) = -k + (-1) by ring, zpow_add₀ h2ne]
      norm_num
      ring
    have hup : (2:ℚ) ^ ((53:ℤ)) - 1/2 ≤ (a:ℚ) / b * (2:ℚ) ^ (-k) := by
      have hgt : ((2 ^ 53 : ℕ) : ℚ) + 1 ≤ ((roundAt a b k : ℕ) : ℚ) := by
        exact_mod_cast hacc
      rw [hc53] at hgt
      linarith
    refine ⟨?_, ?_, hr1', hr2'⟩
    · by_contra hlt
      push_neg at hlt
      have hsq : ((roundAt a b (k+1) : ℕ) : ℚ) ≤ ((2 ^ 52 : ℕ) : ℚ) - 1 := by
        have : (roundAt a b (k+1)) + 1 ≤ 2 ^ 52 := hlt
        have := (Nat.cast_le (α := ℚ)).mpr this
        push_cast at this ⊢
        linarith
      rw [hc52] at hsq
      have h52 : (2:ℚ) ^ ((53:ℤ)) = 2 * (2:ℚ) ^ ((52:ℤ)) := by
        rw [show ((53:ℤ)) = 52 + 1 by norm_num, zpow_add₀ h2ne]
        ring
      rw [hhalf] at hr1'
      linarith
    · by_contra hlt2
      push_neg at hlt2
      have hge : ((2 ^ 53 : ℕ) : ℚ) + 1 ≤ ((roundAt a b (k+1) : ℕ) : ℚ) := by
        exact_mod_cast hlt2
      rw [hc53] at hge
      linarith

theorem fdiv_trunc_ge (a ds out : ℕ) (h0 : 0 < out) (hlt : out < ds)
    (hsmall : out ≤ 2 ^ 53 - 2) : a ≤ fdiv_trunc (a * ds) out := by
  rcases Nat.eq_zero_or_pos a with rfl | ha
  · simp
  have hN : 0 < a * ds := Nat.mul_pos ha (by omega)
  obtain ⟨hs1, hs2, hs3, hs4⟩ := floatRound_spec (a * ds) out hN h0
  set s := (floatRound (a * ds) out).1 with hsdef
  set k := (floatRound (a * ds) out).2 with hkdef
  have houtq : (0:ℚ) < (out:ℚ) := by exact_mod_cast h0
  have haq : (0:ℚ) < (a:ℚ) := by exact_mod_cast ha
  set Q : ℚ := ((a * ds : ℕ) : ℚ) / out with hQdef
  have hQpos : 0 < Q := by positivity
  have hu : (0:ℚ) < (2:ℚ) ^ k := by positivity
  have h2ne : (2:ℚ) ≠ 0 := by norm_num
  have hcanc : Q * (2:ℚ) ^ (-k) * (2:ℚ) ^ k = Q := by
    rw [mul_assoc, ← zpow_add₀ h2ne]
    norm_num
  have hV1 : Q - (2:ℚ) ^ k / 2 ≤ (s:ℚ) * (2:ℚ) ^ k := by
    have hmul := mul_le_mul_of_nonneg_right hs3 (le_of_lt hu)
    calc Q - (2:ℚ) ^ k / 2 = (Q * (2:ℚ) ^ (-k) - 1/2) * (2:ℚ) ^ k := by
          rw [sub_mul, hcanc]
          ring
      _ ≤ (s:ℚ) * (2:ℚ) ^ k := hmul
  set M : ℚ := (2:ℚ) ^ (53:ℕ) - 1 with hMdef
  have hMpos : (0:ℚ) < M := by norm_num [hMdef]
  have hB : M * (2:ℚ) ^ k ≤ 2 * Q := by
    have h1 : ((2:ℚ) ^ (52:ℕ)) - 1/2 ≤ Q * (2:ℚ) ^ (-k) := by
      have hcast : ((2 ^ 52 : ℕ) : ℚ) = (2:ℚ) ^ (52:ℕ) := by push_cast; ring
      have hcl := (Nat.cast_le (α := ℚ)).mpr hs1
      rw [hcast] at hcl
      linarith
    have hmul := mul_le_mul_of_nonneg_right h1 (le_of_lt hu)
    rw [hcanc] at hmul
    have hM2 : M = 2 * ((2:ℚ) ^ (52:ℕ) - 1/2) := by
      rw [hMdef, show (53:ℕ) = 52 + 1 by norm_num, pow_succ]
      ring
    rw [hM2]
    nlinarith [hmul, hu]
  have hq1 : (a:ℚ) * ((out:ℚ) + 1) ≤ Q * out := by
    have hn1 : a * (out + 1) ≤ a * ds := Nat.mul_le_mul_left a (by omega)
    have hc1 : ((a * (out + 1) : ℕ) : ℚ) ≤ ((a * ds : ℕ) : ℚ) := by exact_mod_cast hn1
    have hQout : Q * out = ((a * ds : ℕ) : ℚ) := by
      rw [hQdef]
      field_simp
    rw [hQout]
    push_cast at hc1 ⊢
    linarith
  have hM1 : (out : ℚ) ≤ M - 1 := by
    have : ((out : ℕ) : ℚ) ≤ ((2 ^ 53 - 2 : ℕ) : ℚ) := by exact_mod_cast hsmall
    have hc : ((2 ^ 53 - 2 : ℕ) : ℚ) = M - 1 := by
      rw [hMdef]
      push_cast [Nat.cast_sub (by norm_num : 2 ≤ 2 ^ 53)]
      ring
    linarith [hc ▸ this]
  have hMQ : (a:ℚ) * M ≤ Q * (M - 1) := by
    nlinarith [hq1, hM1, hQpos, houtq, haq, mul_le_mul_of_nonneg_left hM1 haq.le]
  have hVa : (a:ℚ) ≤ (s:ℚ) * (2:ℚ) ^ k := by
    have hstep : M * ((s:ℚ) * (2:ℚ) ^ k) ≥ M * Q - Q := by
      nlinarith [hV1, hB, hMpos]
    have : M * ((s:ℚ) * (2:ℚ) ^ k) ≥ M * (a:ℚ) := by nlinarith [hMQ, hstep]
    exact le_of_mul_le_mul_left (by linarith) hMpos
  rw [fdiv_trunc]
  by_cases hk : 0 ≤ (floatRound (a * ds) out).2
  · rw [if_pos hk]
    have hcast : ((s * 2 ^ k.toNat : ℕ) : ℚ) = (s:ℚ) * (2:ℚ) ^ k := by
      push_cast
      rw [← zpow_natCast (2:ℚ) k.toNat, Int.toNat_of_nonneg hk]
    have : (a:ℚ) ≤ ((s * 2 ^ k.toNat : ℕ) : ℚ) := by rw [hcast]; exact hVa
    exact_mod_cast this
  · rw [if_neg hk]
    push_neg at hk
    rw [Nat.le_div_iff_mul_le (by positivity)]
    have hcast : ((2 ^ (-k).toNat : ℕ) : ℚ) = (2:ℚ) ^ (-k) := by
      push_cast
      rw [← zpow_natCast (2:ℚ) (-k).toNat, Int.toNat_of_nonneg (by omega : (0:ℤ) ≤ -k)]
    have hqq : ((a * 2 ^ (-k).toNat : ℕ) : ℚ) ≤ (s:ℚ) := by
      push_cast [hcast]
      have h2 := mul_le_mul_of_nonneg_right hVa (le_of_lt (show (0:ℚ) < (2:ℚ) ^ (-k) by positivity))
      have hc2 : (s:ℚ) * (2:ℚ) ^ k * (2:ℚ) ^ (-k) = s := by
        rw [mul_assoc, ← zpow_add₀ h2ne]
        norm_num
      rw [hc2] at h2
      exact h2
    exact_mod_cast hqq

theorem fdiv_trunc_zero_num (b : ℕ) : fdiv_trunc 0 b = 0 := by
  simp [fdiv_trunc, floatRound]

theorem fdiv_trunc_exact (out M : ℕ) (h0 : 0 < out) (hM : M ≤ 2 ^ 53) :
    fdiv_trunc (out * M) out = M := by
  rcases Nat.eq_zero_or_pos M with rfl | hMpos
  · simpa using fdiv_trunc_zero_num out
  have hN : 0 < out * M := Nat.mul_pos h0 hMpos
  have hkle : (bitlen (out * M) : ℤ) - bitlen out - 53 ≤ 0 := by
    have ho : out < 2 ^ bitlen out := (bitlen_spec out h0).2
    have h1 : out * M < 2 ^ (bitlen out + 53) := by
      have hgoal : out * M ≤ out * 2 ^ 53 := Nat.mul_le_mul_left _ hM
      have h2 : out * 2 ^ 53 < 2 ^ bitlen out * 2 ^ 53 :=
        Nat.mul_lt_mul_of_lt_of_le ho (le_refl _) (by positivity)
      rw [pow_add]
      omega
    have := bitlen_le (out * M) (bitlen out + 53) h1
    omega
  have hexact : ∀ j : ℤ, j ≤ 0 → roundAt (out * M) out j = M * 2 ^ (-j).toNat := by
    intro j hj
    by_cases hj0 : 0 ≤ j
    · have hjz : j = 0 := le_antisymm hj hj0
      subst hjz
      rw [roundAt, if_pos le_rfl]
      simp only [Int.toNat_zero, pow_zero, mul_one, Int.neg_zero]
      rw [rnEven_exact _ _ h0 ⟨M, rfl⟩, Nat.mul_div_cancel_left _ h0]
    · rw [roundAt, if_neg hj0]
      rw [show out * M * 2 ^ (-j).toNat = out * (M * 2 ^ (-j).toNat) by ring]
      rw [rnEven_exact _ _ h0 ⟨_, rfl⟩, Nat.mul_div_cancel_left _ h0]
  have hfr : floatRound (out * M) out =
      if roundAt (out * M) out ((bitlen (out * M) : ℤ) - bitlen out - 53) ≤ 2 ^ 53
      then (roundAt (out * M) out ((bitlen (out * M) : ℤ) - bitlen out - 53),
            (bitlen (out * M) : ℤ) - bitlen out - 53)
      else (roundAt (out * M) out ((bitlen (out * M) : ℤ) - bitlen out - 53 + 1),
            (bitlen (out * M) : ℤ) - bitlen out - 53 + 1) := by
    rw [floatRound, if_neg (by push_neg; omega)]
  set k0 : ℤ := (bitlen (out * M) : ℤ) - bitlen out - 53 with hk0
  have hfin : ∀ j : ℤ, j ≤ 0 →
      (if 0 ≤ j then M * 2 ^ (-j).toNat * 2 ^ j.toNat else M * 2 ^ (-j).toNat / 2 ^ (-j).toNat) = M := by
    intro j hj
    by_cases hj0 : 0 ≤ j
    · have hjz : j = 0 := le_antisymm hj hj0
      subst hjz
      simp
    · rw [if_neg hj0, Nat.mul_div_cancel _ (by positivity)]
  by_cases hacc : roundAt (out * M) out k0 ≤ 2 ^ 53
  · rw [fdiv_trunc, hfr, if_pos hacc]
    simp only
    rw [hexact k0 hkle]
    exact hfin k0 hkle
  · have hk0neg : k0 < 0 := by
      by_contra hge
      push_neg at hge
      have hz : k0 = 0 := le_antisymm hkle hge
      rw [hexact k0 hkle, hz] at hacc
      simp at hacc
      omega
    rw [fdiv_trunc, hfr, if_neg hacc]
    simp only
    rw [hexact (k0 + 1) (by omega)]
    exact hfin (k0 + 1) (by omega)

theorem ceil_nat_div (p q : ℕ) (hq : 0 < q) :
    (Int.ceil ((p:ℚ) / q)).toNat = (p + q - 1) / q := by
  have hqq : (0:ℚ) < (q:ℚ) := by exact_mod_cast hq
  set c := (p + q - 1) / q with hc
  have hc1 : c * q ≤ p + q - 1 := Nat.div_mul_le_self _ _
  have hc2 : p + q - 1 < q * (c + 1) := Nat.lt_mul_div_succ _ hq
  have hs : p + q - 1 + 1 = p + q := by omega
  have hc2' : p + q - 1 < q * c + q := by rw [Nat.mul_succ] at hc2; exact hc2
  have hc1' : q * c ≤ p + q - 1 := by rw [mul_comm] at hc1; exact hc1
  have hp1 : q * c + 1 ≤ p + q := by linarith
  have hp2 : p ≤ q * c := by linarith
  have hceil : Int.ceil ((p:ℚ) / q) = (c:ℤ) := by
    rw [Int.ceil_eq_iff]
    constructor
    · rw [show (((c:ℤ)):ℚ) - 1 = ((c:ℚ)) - 1 by push_cast; ring]
      rw [lt_div_iff₀ hqq]
      have hcc : ((q * c + 1 : ℕ) : ℚ) ≤ ((p + q : ℕ) : ℚ) := by exact_mod_cast hp1
      push_cast at hcc ⊢
      linarith [hqq]
    · rw [div_le_iff₀ hqq]
      have hcc : ((p : ℕ) : ℚ) ≤ ((q * c : ℕ) : ℚ) := by exact_mod_cast hp2
      push_cast at hcc ⊢
      linarith
  rw [hceil, Int.toNat_natCast]

theorem to_int_pairVal (p : ℕ × ℤ) (dec : ℕ) : to_int (pairVal p) dec = ceilPair p dec := by
  obtain ⟨s, k⟩ := p
  rw [to_int, pairVal, ceilPair]
  by_cases hk : 0 ≤ k
  · rw [if_pos hk]
    have hcast : (s:ℚ) * (2:ℚ) ^ k * 10 ^ dec = ((s * 2 ^ k.toNat * 10 ^ dec : ℕ) : ℚ) := by
      push_cast
      rw [← zpow_natCast (2:ℚ) k.toNat, Int.toNat_of_nonneg hk]
    rw [hcast, Int.ceil_natCast, Int.toNat_natCast]
  · rw [if_neg hk]
    have hm : (0:ℤ) ≤ -k := by omega
    have hz : (2:ℚ) ^ k * (2:ℚ) ^ (-k) = 1 := by
      rw [← zpow_add₀ (by norm_num : (2:ℚ) ≠ 0)]
      norm_num
    have hcast : (s:ℚ) * (2:ℚ) ^ k * 10 ^ dec
        = ((s * 10 ^ dec : ℕ) : ℚ) / ((2 ^ (-k).toNat : ℕ) : ℚ) := by
      push_cast
      rw [← zpow_natCast (2:ℚ) (-k).toNat, Int.toNat_of_nonneg hm]
      rw [eq_div_iff (zpow_ne_zero _ (by norm_num))]
      calc (s:ℚ) * (2:ℚ) ^ k * (10:ℚ) ^ dec * (2:ℚ) ^ (-k)
          = (s:ℚ) * (10:ℚ) ^ dec * ((2:ℚ) ^ k * (2:ℚ) ^ (-k)) := by ring
        _ = (s:ℚ) * (10:ℚ) ^ dec := by rw [hz, mul_one]
    rw [hcast, ceil_nat_div _ _ (by positivity)]

theorem flq_div_eq (c d : ℕ) (hd : 0 < d) (hcop : Nat.Coprime c d) :
    flq ((c : ℚ) / d) = floatRound c d := by
  have hb0 : (0:ℤ) < (d:ℤ) := by exact_mod_cast hd
  have hco : Nat.Coprime (c:ℤ).natAbs (d:ℤ).natAbs := by simpa using hcop
  have hnum := Rat.num_div_eq_of_coprime hb0 hco
  have hden := Rat.den_div_eq_of_coprime hb0 hco
  have hden' : (((c:ℤ):ℚ)/((d:ℤ):ℚ)).den = d := by exact_mod_cast hden
  rw [flq, show ((c:ℚ)/d) = (((c:ℤ):ℚ)/((d:ℤ):ℚ)) by push_cast; ring]
  rw [hnum, hden', Int.toNat_natCast]

/-- Helper invariant: when the search returns, the returned `(amount_in,
amount_out, path_id)` are those of the last quote issued, and the output meets
the target. -/
theorem targetOutputSearch_some_spec (quote : ℕ → ℕ × ℕ) (ds : ℕ) :
    ∀ fuel a out pid a' out' pid', quote a = (out, pid) →
      (targetOutputSearch quote ds fuel a out pid).1 = some (a', out', pid') →
      quote a' = (out', pid') ∧ ds ≤ out' := by
  intro fuel
  induction fuel with
  | zero =>
    intro a out pid a' out' pid' h0 h
    by_cases hc : out < ds
    · simp [targetOutputSearch, hc] at h
    · simp only [targetOutputSearch, if_neg hc, Option.some.injEq, Prod.mk.injEq] at h
      obtain ⟨ha, ho, hp⟩ := h
      subst ha; subst ho; subst hp
      exact ⟨h0, not_lt.mp hc⟩
  | succ n ih =>
    intro a out pid a' out' pid' h0 h
    by_cases hc : out < ds
    · simp only [targetOutputSearch, if_pos hc] at h
      exact ih (rescale a ds out) (quote (rescale a ds out)).1
        (quote (rescale a ds out)).2 a' out' pid' rfl h
    · simp only [targetOutputSearch, if_neg hc, Option.some.injEq, Prod.mk.injEq] at h
      obtain ⟨ha, ho, hp⟩ := h
      subst ha; subst ho; subst hp
      exact ⟨h0, not_lt.mp hc⟩

/-- Helper: a non-negative `debt_amm` trips the first assertion before any
external quote or calldata request. -/
theorem close_loan_err_debt (env : Env) (odos : Odos) (zap account market : ℕ)
    (ub : Bool) (slip : ℚ) (fuel : ℕ)
    (h1 : 0 ≤ (env.get_close_loan_amounts account market).1) :
    get_close_loan_routing_data env odos zap account market ub slip fuel =
      (.error "assert debt_amm < 0", [], []) := by
  simp only [get_close_loan_routing_data]
  rw [if_pos h1]

/-- Helper: a non-positive `coll_amm` trips the second assertion before any
external quote or calldata request. -/
theorem close_loan_err_coll (env : Env) (odos : Odos) (zap account market : ℕ)
    (ub : Bool) (slip : ℚ) (fuel : ℕ)
    (h1 : ¬ 0 ≤ (env.get_close_loan_amounts account market).1)
    (h2 : (env.get_close_loan_amounts account market).2 ≤ 0) :
    get_close_loan_routing_data env odos zap account market ub slip fuel =
      (.error "assert coll_amm > 0", [], []) := by
  simp only [get_close_loan_routing_data]
  rw [if_neg h1, if_pos h2]

/-- Helper: a non-positive `debt_shortfall` trips the third assertion before
any external quote or calldata request. -/
theorem close_loan_err_shortfall (env : Env) (odos : Odos) (zap account market : ℕ)
    (ub : Bool) (slip : ℚ) (fuel : ℕ)
    (h1 : ¬ 0 ≤ (env.get_close_loan_amounts account market).1)
    (h2 : ¬ (env.get_close_loan_amounts account market).2 ≤ 0)
    (h3 : -(((if ub then env.money_balanceOf account else 0 : ℕ) : ℤ)
      + (env.get_close_loan_amounts account market).1) ≤ 0) :
    get_close_loan_routing_data env odos zap account market ub slip fuel =
      (.error "assert debt_shortfall > 0", [], []) := by
  simp only [get_close_loan_routing_data]
  rw [if_neg h1, if_neg h2, if_pos h3]

/-- Helper: with all three assertions passing, the close-loan calculator is the
seed estimate followed by the target-output search. -/
theorem close_loan_run (env : Env) (odos : Odos) (zap account market : ℕ)
    (ub : Bool) (slip : ℚ) (fuel : ℕ)
    (h1 : ¬ 0 ≤ (env.get_close_loan_amounts account market).1)
    (h2 : ¬ (env.get_close_loan_amounts account market).2 ≤ 0)
    (h3 : ¬ -(((if ub then env.money_balanceOf account else 0 : ℕ) : ℤ)
      + (env.get_close_loan_amounts account market).1) ≤ 0) :
    get_close_loan_routing_data env odos zap account market ub slip fuel =
      (let collateral := env.get_collateral market
       let ds := (-(((if ub then env.money_balanceOf account else 0 : ℕ) : ℤ)
         + (env.get_close_loan_amounts account market).1)).toNat
       let amount_in := seed_amount ds (env.get_oracle_price collateral) slip
         (env.decimals collateral)
       let quote := fun a => odos.get_quote env.chain_id zap collateral MONEY a slip
       let r := targetOutputSearch quote ds fuel amount_in (quote amount_in).1 (quote amount_in).2
       (match r.1 with
        | none => .error "did not converge"
        | some (a, out, pid) => .ok (odos.get_route_calldata zap pid, a, out),
        (amount_in :: r.2).map fun a => (collateral, MONEY, a),
        match r.1 with | none => [] | some (_, _, pid) => [pid])) := by
  simp only [get_close_loan_routing_data]
  rw [if_neg h1, if_neg h2, if_neg h3]

/-- C1: whenever the close-loan calculator returns, the returned `amount_out`
is at least `debt_shortfall = -(account balance if used else 0, plus
debt_amm)`, the returned `amount_in` is the input amount of the final quote,
and the returned routing data is the calldata for the final quote's route
identifier. -/
theorem close_loan_ok_covers_shortfall (env : Env) (odos : Odos)
    (zap account market : ℕ) (use_account_balance : Bool) (max_slippage : ℚ)
    (fuel rd a out : ℕ)
    (h : (get_close_loan_routing_data env odos zap account market
      use_account_balance max_slippage fuel).1 = .ok (rd, a, out)) :
    -(((if use_account_balance then env.money_balanceOf account else 0 : ℕ) : ℤ)
        + (env.get_close_loan_amounts account market).1) ≤ (out : ℤ) ∧
    ∃ pid, odos.get_quote env.chain_id zap (env.get_collateral market) MONEY
        a max_slippage = (out, pid) ∧ rd = odos.get_route_calldata zap pid := by
  by_cases h1 : 0 ≤ (env.get_close_loan_amounts account market).1
  · rw [close_loan_err_debt env odos zap account market _ _ _ h1] at h
    exact absurd h (by simp)
  by_cases h2 : (env.get_close_loan_amounts account market).2 ≤ 0
  · rw [close_loan_err_coll env odos zap account market _ _ _ h1 h2] at h
    exact absurd h (by simp)
  by_cases h3 : -(((if use_account_balance then env.money_balanceOf account else 0 : ℕ) : ℤ)
      + (env.get_close_loan_amounts account market).1) ≤ 0
  · rw [close_loan_err_shortfall env odos zap account market _ _ _ h1 h2 h3] at h
    exact absurd h (by simp)
  rw [close_loan_run env odos zap account market _ _ _ h1 h2 h3] at h
  dsimp only at h
  split at h
  · exact absurd h (by simp)
  · rename_i a' out' pid' heq
    simp only [Except.ok.injEq, Prod.mk.injEq] at h
    obtain ⟨hrd, ha, hout⟩ := h
    subst ha; subst hout
    have hspec := targetOutputSearch_some_spec
      (fun x => odos.get_quote env.chain_id zap (env.get_collateral market) MONEY x max_slippage)
      _ fuel _ _ _ a' out' pid' rfl heq
    refine ⟨?_, pid', hspec.1, hrd.symm⟩
    have hge := hspec.2
    omega

/-- Helper evaluation: the seed estimate on the concrete snapshot (shortfall
100, unit price, zero slippage, zero decimals) is 100. -/
theorem seed_amount_100 : seed_amount 100 1 0 0 = 100 := by
  rw [seed_amount, show (1 + (0:ℚ)) = ((1:ℕ):ℚ) / ((1:ℕ):ℚ) by norm_num]
  rw [flq_div_eq 1 1 one_pos (by decide), to_int_pairVal]
  decide

/-- Witness for C1 at a concrete snapshot: the calculator returns
`(1003, 100, 100)` and the conclusion holds for it. -/
theorem close_loan_ok_covers_shortfall_witness :
    -(((if false then testEnv.money_balanceOf 4 else 0 : ℕ) : ℤ)
        + (testEnv.get_close_loan_amounts 4 5).1) ≤ (100 : ℤ) ∧
    ∃ pid, idOdos.get_quote testEnv.chain_id 9 (testEnv.get_collateral 5) MONEY
        100 0 = (100, pid) ∧ 1003 = idOdos.get_route_calldata 9 pid :=
  close_loan_ok_covers_shortfall testEnv idOdos 9 4 5 false 0 0 1003 100 100 (by
    rw [close_loan_run testEnv idOdos 9 4 5 false 0 0 (by decide) (by decide) (by decide)]
    norm_num [testEnv, idOdos, targetOutputSearch,
      show (Int.toNat 100) = 100 from rfl, seed_amount_100])

/-- C4: if the first quote already yields `amount_out` at or above
`debt_shortfall`, the loop body never executes: exactly one quote request is
issued and the seed `amount_in` is returned unchanged together with the first
quote's `amount_out` (for any fuel, in particular zero loop iterations). -/
theorem close_first_quote_sufficient (env : Env) (odos : Odos)
    (zap account market : ℕ) (ub : Bool) (slip : ℚ) (fuel : ℕ)
    (h1 : ¬ 0 ≤ (env.get_close_loan_amounts account market).1)
    (h2 : ¬ (env.get_close_loan_amounts account market).2 ≤ 0)
    (h3 : ¬ -(((if ub then env.money_balanceOf account else 0 : ℕ) : ℤ)
      + (env.get_close_loan_amounts account market).1) ≤ 0)
    (hq : (-(((if ub then env.money_balanceOf account else 0 : ℕ) : ℤ)
        + (env.get_close_loan_amounts account market).1)).toNat ≤ (odos.get_quote env.chain_id zap (env.get_collateral market) MONEY
      (seed_amount (-(((if ub then env.money_balanceOf account else 0 : ℕ) : ℤ)
        + (env.get_close_loan_amounts account market).1)).toNat
      (env.get_oracle_price (env.get_collateral market)) slip (env.decimals (env.get_collateral market))) slip).1) :
    get_close_loan_routing_data env odos zap account market ub slip fuel =
      (.ok (odos.get_route_calldata zap (odos.get_quote env.chain_id zap (env.get_collateral market) MONEY
      (seed_amount (-(((if ub then env.money_balanceOf account else 0 : ℕ) : ℤ)
        + (env.get_close_loan_amounts account market).1)).toNat
      (env.get_oracle_price (env.get_collateral market)) slip (env.decimals (env.get_collateral market))) slip).2,
        (seed_amount (-(((if ub then env.money_balanceOf account else 0 : ℕ) : ℤ)
        + (env.get_close_loan_amounts account market).1)).toNat
      (env.get_oracle_price (env.get_collateral market)) slip (env.decimals (env.get_collateral market))),
        (odos.get_quote env.chain_id zap (env.get_collateral market) MONEY
      (seed_amount (-(((if ub then env.money_balanceOf account else 0 : ℕ) : ℤ)
        + (env.get_close_loan_amounts account market).1)).toNat
      (env.get_oracle_price (env.get_collateral market)) slip (env.decimals (env.get_collateral market))) slip).1),
       [((env.get_collateral market), MONEY, (seed_amount (-(((if ub then env.money_balanceOf account else 0 : ℕ) : ℤ)
        + (env.get_close_loan_amounts account market).1)).toNat
      (env.get_oracle_price (env.get_collateral market)) slip (env.decimals (env.get_collateral market))))],
       [(odos.get_quote env.chain_id zap (env.get_collateral market) MONEY
      (seed_amount (-(((if ub then env.money_balanceOf account else 0 : ℕ) : ℤ)
        + (env.get_close_loan_amounts account market).1)).toNat
      (env.get_oracle_price (env.get_collateral market)) slip (env.decimals (env.get_collateral market))) slip).2]) := by
  rw [close_loan_run env odos zap account market ub slip fuel h1 h2 h3]
  dsimp only
  cases fuel <;>
    simp only [targetOutputSearch, if_neg (not_lt.mpr hq), List.map]

/-- Witness for C4: a snapshot where the first quote returns exactly
`debt_shortfall = 100`; the result is the seed `100` with one quote logged. -/
theorem close_first_quote_sufficient_witness :
    get_close_loan_routing_data testEnv idOdos 9 4 5 false 0 0 =
      (.ok (1003, 100, 100), [(7, MONEY, 100)], [3]) := by
  rw [close_first_quote_sufficient testEnv idOdos 9 4 5 false 0 0 (by decide) (by decide)
    (by decide) (by norm_num [testEnv, idOdos, show (Int.toNat 100) = 100 from rfl,
      seed_amount_100])]
  norm_num [testEnv, idOdos, show (Int.toNat 100) = 100 from rfl, seed_amount_100]

/-- C5: the close-loan calculator fails immediately whenever `debt_amm ≥ 0`,
`coll_amm ≤ 0`, or `debt_shortfall ≤ 0`, and in every such failing execution
no quote request and no route-calldata request is issued. -/
theorem close_precondition_failure (env : Env) (odos : Odos)
    (zap account market : ℕ) (ub : Bool) (slip : ℚ) (fuel : ℕ)
    (h : 0 ≤ (env.get_close_loan_amounts account market).1 ∨
         (env.get_close_loan_amounts account market).2 ≤ 0 ∨
         -(((if ub then env.money_balanceOf account else 0 : ℕ) : ℤ)
           + (env.get_close_loan_amounts account market).1) ≤ 0) :
    ∃ e, get_close_loan_routing_data env odos zap account market ub slip fuel =
      (.error e, [], []) := by
  by_cases h1 : 0 ≤ (env.get_close_loan_amounts account market).1
  · exact ⟨_, close_loan_err_debt env odos zap account market ub slip fuel h1⟩
  by_cases h2 : (env.get_close_loan_amounts account market).2 ≤ 0
  · exact ⟨_, close_loan_err_coll env odos zap account market ub slip fuel h1 h2⟩
  have h3 : -(((if ub then env.money_balanceOf account else 0 : ℕ) : ℤ)
      + (env.get_close_loan_amounts account market).1) ≤ 0 := by
    rcases h with h | h | h
    exacts [absurd h h1, absurd h h2, h]
  exact ⟨_, close_loan_err_shortfall env odos zap account market ub slip fuel h1 h2 h3⟩

/-- Witness for C5 at a snapshot with `debt_amm = 5 ≥ 0`. -/
theorem close_precondition_failure_witness :
    ∃ e, get_close_loan_routing_data testEnvBadDebt idOdos 9 4 5 true 0 3 =
      (.error e, [], []) :=
  close_precondition_failure testEnvBadDebt idOdos 9 4 5 true 0 3 (Or.inl (by decide))


/-- Helper evaluation: the binary64 seed at the spec's concrete scenario —
shortfall `1000000`, price `2000`, slippage the double `0.003`, 18 decimals. -/
theorem seed_amount_concrete :
    seed_amount 1000000 2000 ((3458764513820541 : ℚ) / 2 ^ 60) 18 =
      501499999999999943157 := by
  rw [seed_amount, show (1 + (3458764513820541 : ℚ) / 2 ^ 60)
    = ((1156380269120667517 : ℕ) : ℚ) / ((1152921504606846976 : ℕ) : ℚ) by norm_num]
  rw [flq_div_eq _ _ (by norm_num) (by decide), to_int_pairVal]
  decide

/-- C6 (amended): the close-loan calculator's first quoted input amount is the
seed `to_int(debt_shortfall / oracle_price * (1 + max_slippage), decimals)`
with the inner expression evaluated in binary64 as the source's floats are,
and `to_int` modelled from the spec as ceiling into token precision; for
`debt_shortfall = 1000000`, price `2000` and `max_slippage` the double
`0.003` (exactly `3458764513820541 / 2 ^ 60`), the 18-decimal seed is
`501499999999999943157` — the ceiling of the double `501.49999999999994`
scaled, not of the exact rational `501.5`. -/
theorem close_seed_estimate :
    (∀ (env : Env) (odos : Odos) (zap account market : ℕ) (ub : Bool)
      (slip : ℚ) (fuel : ℕ),
      ¬ 0 ≤ (env.get_close_loan_amounts account market).1 →
      ¬ (env.get_close_loan_amounts account market).2 ≤ 0 →
      ¬ -(((if ub then env.money_balanceOf account else 0 : ℕ) : ℤ)
        + (env.get_close_loan_amounts account market).1) ≤ 0 →
      (get_close_loan_routing_data env odos zap account market ub slip fuel).2.1.head? =
        some ((env.get_collateral market), MONEY,
          (seed_amount (-(((if ub then env.money_balanceOf account else 0 : ℕ) : ℤ)
        + (env.get_close_loan_amounts account market).1)).toNat
      (env.get_oracle_price (env.get_collateral market)) slip
      (env.decimals (env.get_collateral market))))) ∧
    seed_amount 1000000 2000 ((3458764513820541 : ℚ) / 2 ^ 60) 18 =
      501499999999999943157 := by
  constructor
  · intro env odos zap account market ub slip fuel h1 h2 h3
    rw [close_loan_run env odos zap account market ub slip fuel h1 h2 h3]
    dsimp only
    simp only [List.map, List.head?]
  · exact seed_amount_concrete

/-- Witness for C6: at the concrete snapshot the first logged quote input is
the evaluated seed `100`. -/
theorem close_seed_estimate_witness :
    (get_close_loan_routing_data testEnv idOdos 9 4 5 false 0 0).2.1.head? =
      some (7, MONEY, 100) := by
  rw [close_seed_estimate.1 testEnv idOdos 9 4 5 false 0 0 (by decide) (by decide) (by decide)]
  norm_num [testEnv, show (Int.toNat 100) = 100 from rfl, seed_amount_100]

/-- Counterexample for C6 as stated: at the claim's own concrete instance
(shortfall `1000000`, oracle price `2000`, `max_slippage` the double `0.003`,
18-decimal collateral) the program's first quoted input is
`501499999999999943157`, while the ceiling of the exact rational
`1000000 / 2000 * 1.003` in 18-decimal precision is `501500000000000000000`:
the two differ because line 159 computes with binary64 floats. -/
theorem close_seed_exact_rational_cex :
    (get_close_loan_routing_data testEnvOracle2000 idOdos 9 4 5 false
        ((3458764513820541 : ℚ) / 2 ^ 60) 0).2.1.head? =
      some (7, MONEY, 501499999999999943157) ∧
    to_int ((1000000 : ℚ) / 2000 * (1 + 3 / 1000)) 18 = 501500000000000000000 ∧
    (501499999999999943157 : ℕ) ≠ 501500000000000000000 := by
  refine ⟨?_, ?_, by decide⟩
  · rw [close_loan_run testEnvOracle2000 idOdos 9 4 5 false _ 0 (by decide) (by decide)
      (by decide)]
    norm_num [testEnvOracle2000, testEnv,
      show (Int.toNat 1000000) = 1000000 from rfl]
    rw [show (3458764513820541 / 1152921504606846976 : ℚ)
      = (3458764513820541 : ℚ) / 2 ^ 60 by norm_num]
    exact seed_amount_concrete
  · norm_num [to_int]
    rfl

/-- C2 (amended): in every iteration of the convergence loop the next quoted
input is `rescale` — `int(amount_in * debt_shortfall / amount_out)` with
binary64 true division, the truncation of the correctly rounded double
quotient of the exact product; it recovers the exact quotient whenever
`amount_out` divides the product with quotient at most `2 ^ 53`, and the
truncating behaviour differs from the rounded-to-nearest variant on at least
one input whose product is not exactly divisible — though not on every such
input. -/
theorem rescale_truncation_spec (q : ℕ → ℕ × ℕ) (ds fuel a out pid : ℕ)
    (_h0 : 0 < out) (hlt : out < ds) :
    (targetOutputSearch q ds (fuel + 1) a out pid).2.head? = some (rescale a ds out) ∧
    (∀ a2 ds2 out2 M : ℕ, 0 < out2 → a2 * ds2 = out2 * M → M ≤ 2 ^ 53 →
      rescale a2 ds2 out2 = M) ∧
    ∃ a3 ds3 out3, 0 < out3 ∧ (a3 * ds3) % out3 ≠ 0 ∧
      rescale a3 ds3 out3 ≠ rescaleRounded a3 ds3 out3 := by
  refine ⟨?_, ?_, 1, 5, 3, by decide, by decide, by decide⟩
  · simp only [targetOutputSearch, if_pos hlt, List.head?]
  · intro a2 ds2 out2 M ho2 hprod hM
    rw [rescale, hprod]
    exact fdiv_trunc_exact out2 M ho2 hM

/-- Counterexample for C2 as stated: at a loop iteration from previous input
`48269001213`, target `2071723`, previous output `100000`, the program's next
input is `1000000000000` while the exact floor quotient is `999999999999`
(the double rounding loses the low bits of the product `10 ^ 17 - 1`); and at
an iteration from `(2, 5, 3)` the product `10` is not divisible by `3` yet
truncating and rounded-to-nearest division agree (both give `3`), refuting
the claim's universal divisibility clause as well. -/
theorem rescale_exact_floor_cex :
    (100000 : ℕ) < 2071723 ∧
    (targetOutputSearch (fun _ => ((0:ℕ), (0:ℕ))) 2071723 1 48269001213 100000 0).2.head? =
      some (rescale 48269001213 2071723 100000) ∧
    rescale 48269001213 2071723 100000 = 1000000000000 ∧
    48269001213 * 2071723 / 100000 = 999999999999 ∧
    (2 * 5) % 3 ≠ 0 ∧ rescale 2 5 3 = rescaleRounded 2 5 3 := by decide

/-- Witness for the amended C2 at input 2, target 5, output 3. -/
theorem rescale_truncation_spec_witness :
    (targetOutputSearch (fun _ => ((0:ℕ), (0:ℕ))) 5 1 2 3 0).2.head? = some (rescale 2 5 3) ∧
    (∀ a2 ds2 out2 M : ℕ, 0 < out2 → a2 * ds2 = out2 * M → M ≤ 2 ^ 53 →
      rescale a2 ds2 out2 = M) ∧
    ∃ a3 ds3 out3, 0 < out3 ∧ (a3 * ds3) % out3 ≠ 0 ∧
      rescale a3 ds3 out3 ≠ rescaleRounded a3 ds3 out3 :=
  rescale_truncation_spec (fun _ => ((0:ℕ), (0:ℕ))) 5 0 2 3 0 (by decide) (by decide)

/-- Helper: the rescale step never decreases the input amount when the quoted
output is positive, below the target, and below `2 ^ 53 - 1` (within exact
double range). -/
theorem rescale_ge_self (a ds out : ℕ) (h0 : 0 < out) (hlt : out < ds)
    (hs : out ≤ 2 ^ 53 - 2) : a ≤ rescale a ds out := by
  rw [rescale]
  exact fdiv_trunc_ge a ds out h0 hlt hs

/-- Helper: the input amounts quoted by the loop form a non-decreasing chain
when every quote output is positive and below `2 ^ 53 - 1`. -/
theorem targetOutputSearch_calls_mono (q : ℕ → ℕ × ℕ) (ds : ℕ)
    (hq : ∀ x, 0 < (q x).1 ∧ (q x).1 ≤ 2 ^ 53 - 2) :
    ∀ fuel a out pid, 0 < out → out ≤ 2 ^ 53 - 2 →
      List.Chain' (· ≤ ·) (a :: (targetOutputSearch q ds fuel a out pid).2) := by
  intro fuel
  induction fuel with
  | zero =>
    intro a out pid _ _
    by_cases hc : out < ds <;> simp [targetOutputSearch, hc]
  | succ n ih =>
    intro a out pid h0 hs
    by_cases hc : out < ds
    · simp only [targetOutputSearch, if_pos hc]
      rw [List.chain'_cons]
      exact ⟨rescale_ge_self a ds out h0 hc hs,
        ih (rescale a ds out) (q (rescale a ds out)).1 (q (rescale a ds out)).2
          (hq (rescale a ds out)).1 (hq (rescale a ds out)).2⟩
    · simp [targetOutputSearch, hc]

/-- C10 (amended): whenever the loop body executes (`amount_out <
debt_shortfall`, with a positive quoted output, as a zero output would abort
the source with a division error) and the quoted outputs stay below
`2 ^ 53 - 1` — within the range where the binary64 quotient cannot round
below the previous input — the rescaled input is at least the previous input,
and the sequence of quoted input amounts is monotonically non-decreasing
across iterations. -/
theorem close_loop_monotone (q : ℕ → ℕ × ℕ) (ds fuel a out pid : ℕ)
    (hq : ∀ x, 0 < (q x).1 ∧ (q x).1 ≤ 2 ^ 53 - 2)
    (h0 : 0 < out) (hsmall : out ≤ 2 ^ 53 - 2) (hlt : out < ds) :
    a ≤ rescale a ds out ∧
    List.Chain' (· ≤ ·) (a :: (targetOutputSearch q ds fuel a out pid).2) :=
  ⟨rescale_ge_self a ds out h0 hlt hsmall,
   targetOutputSearch_calls_mono q ds hq fuel a out pid h0 hsmall⟩

/-- Witness for the amended C10 with a concrete bounded quote function. -/
theorem close_loop_monotone_witness :
    2 ≤ rescale 2 3 1 ∧
    List.Chain' (· ≤ ·) (2 :: (targetOutputSearch (fun _ => ((2:ℕ), (0:ℕ))) 3 2 2 1 0).2) :=
  close_loop_monotone (fun _ => ((2:ℕ), (0:ℕ))) 3 2 2 1 0
    (by intro x; dsimp only; exact ⟨by decide, by decide⟩)
    (by decide) (by decide) (by decide)

/-- Counterexample for C10 as stated: from previous input
`501499999999999943157` (the seed of the C6 scenario, not representable as a
double) with previous output `10 ^ 21 - 1` below the target `10 ^ 21`, the
loop body executes and the program's rescaled input is
`501499999999999934464` — a decrease of `8693` — because the binary64
quotient rounds below the previous input. -/
theorem close_loop_decrease_cex :
    (0:ℕ) < 10 ^ 21 - 1 ∧ 10 ^ 21 - 1 < 10 ^ 21 ∧
    (targetOutputSearch (fun _ => ((0:ℕ), (0:ℕ))) (10 ^ 21) 1
        501499999999999943157 (10 ^ 21 - 1) 0).2.head? =
      some (rescale 501499999999999943157 (10 ^ 21) (10 ^ 21 - 1)) ∧
    rescale 501499999999999943157 (10 ^ 21) (10 ^ 21 - 1) = 501499999999999934464 ∧
    (501499999999999934464 : ℕ) < 501499999999999943157 := by decide

/-- Counterexample for C3 as stated: `stallQuote` is monotone non-decreasing,
positive, and reaches the target `11` at input `100` (sufficient liquidity),
yet from the positive seed `3` (quoted output `10`) the loop never
terminates: the rescale `int(3 * 11 / 10) = 3` is a fixed point. -/
theorem close_loop_stall_cex :
    (∀ x y, x ≤ y → (stallQuote x).1 ≤ (stallQuote y).1) ∧
    (∀ x, 0 < x → 0 < (stallQuote x).1) ∧
    11 ≤ (stallQuote 100).1 ∧ (0 : ℕ) < 3 ∧ stallQuote 3 = (10, 0) ∧
    ∀ fuel, (targetOutputSearch stallQuote 11 fuel 3 10 0).1 = none := by
  refine ⟨?_, ?_, by decide, by decide, by decide, ?_⟩
  · intro x y hxy
    by_cases hx : x < 100 <;> by_cases hy : y < 100 <;>
      (simp [stallQuote, hx, hy]; try omega)
  · intro x hx
    by_cases h : x < 100 <;> simp [stallQuote, h]
  · intro fuel
    induction fuel with
    | zero => decide
    | succ n ih =>
      have hr : rescale 3 11 10 = 3 := by decide
      have hsq : stallQuote 3 = (10, 0) := by decide
      simp only [targetOutputSearch, if_pos (by norm_num : (10:ℕ) < 11), hr, hsq]
      exact ih

/-- C3 (amended): for every monotone non-decreasing quote function, positive
on positive inputs, with sufficient liquidity, and for which the rescale step
(the program's binary64 one) strictly increases the input while the target is
unmet — the progress hypothesis the counterexamples show is necessary — the
loop terminates from any positive seed with `amount_out ≥ debt_shortfall`. -/
theorem close_loop_terminates_of_progress (f : ℕ → ℕ × ℕ) (ds x0 : ℕ)
    (hmono : ∀ x y, x ≤ y → (f x).1 ≤ (f y).1)
    (_hpos : ∀ x, 0 < x → 0 < (f x).1)
    (hliq : ds ≤ (f x0).1)
    (hprog : ∀ a, 0 < a → (f a).1 < ds → a < rescale a ds (f a).1)
    (a0 : ℕ) (ha0 : 0 < a0) :
    ∃ fuel a out pid log,
      targetOutputSearch f ds fuel a0 (f a0).1 (f a0).2 = (some (a, out, pid), log) ∧
      ds ≤ out := by
  suffices h : ∀ n a, 0 < a → x0 ≤ a + n →
      ∃ a' out pid log,
        targetOutputSearch f ds n a (f a).1 (f a).2 = (some (a', out, pid), log) ∧
        ds ≤ out by
    obtain ⟨a', out, pid, log, heq, hout⟩ := h x0 a0 ha0 (by omega)
    exact ⟨x0, a', out, pid, log, heq, hout⟩
  intro n
  induction n with
  | zero =>
    intro a ha hx
    have hds : ds ≤ (f a).1 := le_trans hliq (hmono x0 a (by omega))
    exact ⟨a, (f a).1, (f a).2, [], by simp [targetOutputSearch, not_lt.mpr hds], hds⟩
  | succ n ih =>
    intro a ha hx
    by_cases hc : (f a).1 < ds
    · have hlt := hprog a ha hc
      obtain ⟨a', out, pid, log, heq, hout⟩ := ih (rescale a ds (f a).1) (by omega) (by omega)
      refine ⟨a', out, pid, rescale a ds (f a).1 :: log, ?_, hout⟩
      simp only [targetOutputSearch, if_pos hc]
      rw [heq]
    · exact ⟨a, (f a).1, (f a).2, [], by simp [targetOutputSearch, hc], not_lt.mp hc⟩

/-- Witness for the amended C3 with the linear quote function doubling its
input. -/
theorem close_loop_terminates_of_progress_witness :
    ∃ fuel a out pid log,
      targetOutputSearch (fun x => (2 * x, 5)) 10 fuel 1
        ((fun x => (2 * x, 5)) 1).1 ((fun x => (2 * x, 5)) 1).2 =
        (some (a, out, pid), log) ∧ 10 ≤ out :=
  close_loop_terminates_of_progress (fun x => (2 * x, 5)) 10 5
    (by intro x y h; dsimp only; omega)
    (by intro x hx; dsimp only; omega)
    (by decide)
    (by intro a ha hlt
        dsimp only at hlt ⊢
        have h4 : a ≤ 4 := by omega
        interval_cases a <;> decide)
    1 (by decide)

/-- C7: the collateral-converted close-and-recreate calculator requires
`debt_amm > 0` (failing fatally with no external request otherwise), issues
exactly one quote swapping the full `debt_amm` from the stable token into
collateral, and returns caller-added + `coll_amm` + swap output. -/
theorem coll_converted_close_spec (env : Env) (odos : Odos)
    (zap account market : ℕ) (coll_amount : ℤ) (slip : ℚ) :
    ((env.get_sum_xy (env.market_contracts market).2 account).1 ≤ 0 →
      get_coll_converted_close_and_create_routing_data env odos zap account market
        coll_amount slip = (.error "assert debt_amm > 0", [], [])) ∧
    (0 < (env.get_sum_xy (env.market_contracts market).2 account).1 →
      get_coll_converted_close_and_create_routing_data env odos zap account market
        coll_amount slip =
        (.ok (odos.get_route_calldata zap
            (odos.get_quote env.chain_id zap MONEY (env.market_contracts market).1
              (env.get_sum_xy (env.market_contracts market).2 account).1.toNat slip).2,
          coll_amount + (env.get_sum_xy (env.market_contracts market).2 account).2
            + ((odos.get_quote env.chain_id zap MONEY (env.market_contracts market).1
              (env.get_sum_xy (env.market_contracts market).2 account).1.toNat slip).1 : ℤ)),
         [(MONEY, (env.market_contracts market).1,
           (env.get_sum_xy (env.market_contracts market).2 account).1.toNat)],
         [(odos.get_quote env.chain_id zap MONEY (env.market_contracts market).1
           (env.get_sum_xy (env.market_contracts market).2 account).1.toNat slip).2])) := by
  constructor
  · intro h
    simp only [get_coll_converted_close_and_create_routing_data]
    rw [if_pos h]
  · intro h
    simp only [get_coll_converted_close_and_create_routing_data]
    rw [if_neg (not_le.mpr h)]

/-- Witness for C7: the success case at a concrete snapshot
(`2 + 5 + 40 = 47`) and the failure case at a negative AMM debt sum. -/
theorem coll_converted_close_spec_witness :
    get_coll_converted_close_and_create_routing_data testEnv idOdos 9 4 5 2 0 =
      (.ok (1003, 47), [(MONEY, 7, 40)], [3]) ∧
    get_coll_converted_close_and_create_routing_data testEnvNegSum idOdos 9 4 5 2 0 =
      (.error "assert debt_amm > 0", [], []) := by
  constructor
  · rw [(coll_converted_close_spec testEnv idOdos 9 4 5 2 0).2 (by decide)]
    norm_num [testEnv, idOdos]
    rfl
  · exact (coll_converted_close_spec testEnvNegSum idOdos 9 4 5 2 0).1 (by decide)

/-- C8: the increase-loan calculator returns total collateral existing +
caller-added + swap output, health computed from only the added
collateral/debt delta with the zero band-count sentinel; in particular with
existing 5000, added 0, debt 1000 and a quote of 450 the total is 5450. -/
theorem increase_loan_spec :
    (∀ (env : Env) (odos : Odos) (zap account market coll_amount debt_amount : ℕ)
      (slip : ℚ),
      get_increase_loan_routing_data env odos zap account market coll_amount
        debt_amount slip =
        ((odos.get_route_calldata zap (odos.get_quote env.chain_id zap MONEY
            (env.get_collateral market) debt_amount slip).2,
          env.user_state_coll market account + coll_amount
            + (odos.get_quote env.chain_id zap MONEY (env.get_collateral market)
              debt_amount slip).1,
          env.pending_state market account
            ((coll_amount + (odos.get_quote env.chain_id zap MONEY
              (env.get_collateral market) debt_amount slip).1 : ℕ) : ℤ)
            (debt_amount : ℤ) 0),
         [(MONEY, env.get_collateral market, debt_amount)],
         [(odos.get_quote env.chain_id zap MONEY (env.get_collateral market)
           debt_amount slip).2])) ∧
    (get_increase_loan_routing_data testEnv odos450 9 4 5 0 1000 (3/1000)).1.2.1 = 5450 := by
  exact ⟨fun env odos zap account market coll_amount debt_amount slip => rfl, rfl⟩

/-- C9: the decrease-loan calculator issues exactly one quote swapping the
full withdrawal amount into the stable token, returns that quote's output
unchanged as the expected repayment, and projects health with negative
deltas of the withdrawn collateral and the quoted stable output. -/
theorem decrease_loan_spec (env : Env) (odos : Odos)
    (zap account market coll_amount : ℕ) (slip : ℚ) :
    get_decrease_loan_routing_data env odos zap account market coll_amount slip =
      ((odos.get_route_calldata zap (odos.get_quote env.chain_id zap
          (env.get_collateral market) MONEY coll_amount slip).2,
        (odos.get_quote env.chain_id zap (env.get_collateral market) MONEY
          coll_amount slip).1,
        env.pending_state market account (-(coll_amount : ℤ))
          (-((odos.get_quote env.chain_id zap (env.get_collateral market) MONEY
            coll_amount slip).1 : ℤ)) 0),
       [(env.get_collateral market, MONEY, coll_amount)],
       [(odos.get_quote env.chain_id zap (env.get_collateral market) MONEY
         coll_amount slip).2]) := rfl

